import Mathlib

/-!
Verification of the Wordler solver core (`src/lib/solver.ts`).

The TypeScript module is shallowly embedded below: words are lists of
characters, the 5-slot feedback pattern is a list of `PatternChar`, the
module-level mutable word lists become an explicit `SolverState` record, and
the scoring function used by the guess selector (whose JavaScript
implementation computes Shannon entropy with floating-point `Math.log2`) is
abstracted as an explicit rational-valued parameter; every property proved
about the selector and the solve loop holds for an arbitrary such scoring
function.  The source indexes guesses, answers and patterns with
`for (let i = 0; i < 5; i++)`; on the length-5 words of the data model this
loop coincides with structural recursion over the zipped lists used here.
-/

namespace Wordler

/-- Feedback for one guessed letter: `g` (Correct), `y` (Present), `b` (Absent);
the values of `PatternChar` in `wordleTypes.ts`. -/
inductive PatternChar where
  | g
  | y
  | b
  deriving DecidableEq, Repr

/-- `Pattern` from `wordleTypes.ts`: an ordered list of feedback marks. -/
abbrev Pattern := List PatternChar

/-- A word: a list of characters (the data model fixes 5 lowercase letters). -/
abbrev Word := List Char

/-- `GuessResult` from `wordleTypes.ts`. -/
structure GuessResult where
  guess : Word
  pattern : Pattern
  remaining : Nat
  deriving DecidableEq, Repr

/-- `SolveSummary` from `wordleTypes.ts`. -/
structure SolveSummary where
  success : Bool
  answer : Word
  steps : List GuessResult
  deriving DecidableEq, Repr

/-- The module-level mutable word lists `runtimeAnswers` / `runtimeAllowed`
of `solver.ts`, made explicit as a state record. -/
structure SolverState where
  runtimeAnswers : List Word
  runtimeAllowed : List Word
  deriving DecidableEq, Repr

/-- `setWordLists` from `solver.ts`: each list is replaced only when the
corresponding argument is non-empty. -/
def setWordLists (st : SolverState) (newAnswers newAllowed : List Word) : SolverState :=
  { runtimeAnswers := if 0 < newAnswers.length then newAnswers else st.runtimeAnswers,
    runtimeAllowed := if 0 < newAllowed.length then newAllowed else st.runtimeAllowed }

/-- `getAnswersList` from `solver.ts`. -/
def getAnswersList (st : SolverState) : List Word :=
  st.runtimeAnswers

/-- `getAllowedList` from `solver.ts`. -/
def getAllowedList (st : SolverState) : List Word :=
  st.runtimeAllowed

/-- One JS `freq[ch]--` update of the per-letter frequency table. -/
def decFreq (freq : Char → Nat) (c : Char) : Char → Nat :=
  fun x => if x = c then freq c - 1 else freq x

/-- First pass of `scorePattern`: walk guess and answer in parallel, mark `g`
where the letters align (decrementing that letter's frequency), `b` elsewhere. -/
def greenPass : List (Char × Char) → (Char → Nat) → List PatternChar × (Char → Nat)
  | [], freq => ([], freq)
  | (gc, ac) :: rest, freq =>
      if gc = ac then
        let r := greenPass rest (decFreq freq gc)
        (PatternChar.g :: r.1, r.2)
      else
        let r := greenPass rest freq
        (PatternChar.b :: r.1, r.2)

/-- Second pass of `scorePattern`: left-to-right over the first-pass marks
paired with the guess letters, turn `b` into `y` while the letter's remaining
frequency is positive. -/
def yellowPass : List (PatternChar × Char) → (Char → Nat) → List PatternChar
  | [], _ => []
  | (pc, gc) :: rest, freq =>
      if pc = PatternChar.g then PatternChar.g :: yellowPass rest freq
      else if 0 < freq gc then PatternChar.y :: yellowPass rest (decFreq freq gc)
      else pc :: yellowPass rest freq

/-- Core of `scorePattern` on already-lowercased words: frequency table from
the answer, then the two passes. -/
def scorePatternLower (guess answer : Word) : Pattern :=
  yellowPass ((greenPass (guess.zip answer) (fun c => answer.count c)).1.zip guess)
    (greenPass (guess.zip answer) (fun c => answer.count c)).2

/-- `scorePattern` from `solver.ts`: lowercase both inputs, then run the
two-pass multiset algorithm. -/
def scorePattern (guessRaw answerRaw : Word) : Pattern :=
  scorePatternLower (guessRaw.map Char.toLower) (answerRaw.map Char.toLower)

/-- The fixed opener of the solve loop. -/
def roateWord : Word := ['r', 'o', 'a', 't', 'e']

/-- The target of claim C2's fixture example. -/
def raiseWord : Word := ['r', 'a', 'i', 's', 'e']

/-- The first pass marks `g` exactly at the literally matching positions,
whatever the frequency table. -/
theorem greenPass_count_g (l : List (Char × Char)) :
    ∀ freq : Char → Nat,
      (greenPass l freq).1.count PatternChar.g
        = l.countP (fun p => decide (p.1 = p.2)) := by
  induction l with
  | nil => intro freq; simp [greenPass]
  | cons hd tl ih =>
      intro freq
      obtain ⟨gc, ac⟩ := hd
      by_cases h : gc = ac
      · simp [greenPass, h, List.count_cons, List.countP_cons, ih]
      · simp [greenPass, h, List.count_cons, List.countP_cons, ih]

/-- The first pass produces one mark per position. -/
theorem greenPass_length (l : List (Char × Char)) :
    ∀ freq : Char → Nat, (greenPass l freq).1.length = l.length := by
  induction l with
  | nil => intro freq; simp [greenPass]
  | cons hd tl ih =>
      intro freq
      obtain ⟨gc, ac⟩ := hd
      by_cases h : gc = ac <;> simp [greenPass, h, ih]

/-- The second pass neither creates nor destroys `g` marks. -/
theorem yellowPass_count_g (l : List (PatternChar × Char)) :
    ∀ freq : Char → Nat,
      (yellowPass l freq).count PatternChar.g
        = l.countP (fun p => decide (p.1 = PatternChar.g)) := by
  induction l with
  | nil => intro freq; simp [yellowPass]
  | cons hd tl ih =>
      intro freq
      obtain ⟨pc, gc⟩ := hd
      by_cases h : pc = PatternChar.g
      · simp [yellowPass, h, List.count_cons, List.countP_cons, ih]
      · by_cases h2 : 0 < freq gc
        · simp [yellowPass, h, h2, List.count_cons, List.countP_cons, ih]
        · simp [yellowPass, h, h2, List.count_cons, List.countP_cons, ih]

/-- Counting a property of the first components of a zip whose left list is
no longer than the right one. -/
theorem countP_fst_zip (l : List PatternChar) :
    ∀ l2 : List Char, l.length ≤ l2.length →
      (l.zip l2).countP (fun p => decide (p.1 = PatternChar.g))
        = l.count PatternChar.g := by
  induction l with
  | nil => intro l2 _; simp
  | cons hd tl ih =>
      intro l2 hlen
      cases l2 with
      | nil => simp at hlen
      | cons hd2 tl2 =>
          simp only [List.zip_cons_cons, List.countP_cons, List.count_cons]
          rw [ih tl2 (by simpa using hlen)]
          by_cases h : hd = PatternChar.g <;> simp [h]

/-- Claim C1: for every pair of 5-letter (lowercase) words, the number of
Correct (`g`) marks produced by `scorePattern` equals the number of positions
where the guess letter literally equals the target letter. -/
theorem scorePattern_correct_count (guess target : Word)
    (hg : guess.length = 5) (ht : target.length = 5)
    (hlg : guess.map Char.toLower = guess) (hlt : target.map Char.toLower = target) :
    (scorePattern guess target).count PatternChar.g
      = (guess.zip target).countP (fun p => decide (p.1 = p.2)) := by
  unfold scorePattern scorePatternLower
  rw [hlg, hlt]
  rw [yellowPass_count_g]
  rw [countP_fst_zip _ guess (by rw [greenPass_length, List.length_zip, hg, ht]; omega)]
  rw [greenPass_count_g]

/-- Witness for claim C1 at the concrete pair (roate, raise): hypotheses hold
and the counted greens agree with the matching positions. -/
theorem scorePattern_correct_count_witness :
    (roateWord.length = 5 ∧ raiseWord.length = 5
      ∧ roateWord.map Char.toLower = roateWord ∧ raiseWord.map Char.toLower = raiseWord)
    ∧ (scorePattern roateWord raiseWord).count PatternChar.g
        = (roateWord.zip raiseWord).countP (fun p => decide (p.1 = p.2)) :=
  ⟨⟨by decide, by decide, by decide, by decide⟩,
    scorePattern_correct_count roateWord raiseWord (by decide) (by decide) (by decide) (by decide)⟩

/-- Counterexample to claim C2 as stated: comparing guess "roate" against
target "raise" does not yield the pattern `[g, b, b, b, y]` claimed by the
spec's fixture sentence. -/
theorem scorePattern_roate_raise_cex :
    scorePattern roateWord raiseWord
      ≠ [PatternChar.g, PatternChar.b, PatternChar.b, PatternChar.b, PatternChar.y] := by
  decide

/-- Claim C2 (amended): comparing guess "roate" against target "raise" yields
the pattern `[g, b, y, b, g]`: r matches position 0, e matches position 4,
and a is present but misplaced. -/
theorem scorePattern_roate_raise :
    scorePattern roateWord raiseWord
      = [PatternChar.g, PatternChar.b, PatternChar.y, PatternChar.b, PatternChar.g] := by
  decide

/-- The character rendering of one feedback mark used by `patternToKey`. -/
def patternCharToChar : PatternChar → Char
  | PatternChar.g => 'g'
  | PatternChar.y => 'y'
  | PatternChar.b => 'b'

/-- `patternToKey` from `solver.ts`: `p.join('')` on the mark characters. -/
def patternToKey (p : Pattern) : List Char :=
  p.map patternCharToChar

/-- `consistent` from `solver.ts`: recompute the pattern for (guess, candidate)
and compare keys for exact equality. -/
def consistent (guess : Word) (pattern : Pattern) (candidate : Word) : Bool :=
  patternToKey (scorePattern guess candidate) == patternToKey pattern

/-- `filterCandidates` from `solver.ts`: the runtime answers consistent with
every historical (guess, pattern) pair. -/
def filterCandidates (st : SolverState) (history : List GuessResult) : List Word :=
  st.runtimeAnswers.filter
    (fun ans => history.all (fun h => consistent h.guess h.pattern ans))

theorem patternCharToChar_injective : Function.Injective patternCharToChar := by
  intro u v h
  cases u <;> cases v <;> simp [patternCharToChar] at h ⊢

/-- Key comparison in `consistent` is exactly pattern equality. -/
theorem consistent_iff (guess : Word) (pattern : Pattern) (candidate : Word) :
    consistent guess pattern candidate = true ↔ scorePattern guess candidate = pattern := by
  unfold consistent patternToKey
  rw [beq_iff_eq]
  exact ⟨fun h => List.map_injective_iff.mpr patternCharToChar_injective h,
    fun h => by rw [h]⟩

/-- Claim C3: soundness of filtering.  If the target is in the answers corpus
and every step's pattern was produced by scoring that step's guess against the
target (as the solve loop does), then the target survives `filterCandidates`. -/
theorem filterCandidates_sound (st : SolverState) (target : Word)
    (history : List GuessResult)
    (hmem : target ∈ st.runtimeAnswers)
    (hgen : ∀ step ∈ history, step.pattern = scorePattern step.guess target) :
    target ∈ filterCandidates st history := by
  unfold filterCandidates
  refine List.mem_filter.mpr ⟨hmem, ?_⟩
  rw [List.all_eq_true]
  intro step hstep
  exact (consistent_iff step.guess step.pattern target).mpr (hgen step hstep).symm

/-- Witness for claim C3: a one-step history scored against a concrete target
kept in a concrete corpus. -/
theorem filterCandidates_sound_witness :
    (raiseWord ∈ (SolverState.mk [raiseWord] []).runtimeAnswers
      ∧ ∀ step ∈ [GuessResult.mk roateWord (scorePattern roateWord raiseWord) 0],
          step.pattern = scorePattern step.guess raiseWord)
    ∧ raiseWord ∈ filterCandidates (SolverState.mk [raiseWord] [])
        [GuessResult.mk roateWord (scorePattern roateWord raiseWord) 0] :=
  ⟨⟨by decide, by decide⟩,
    filterCandidates_sound (SolverState.mk [raiseWord] []) raiseWord
      [GuessResult.mk roateWord (scorePattern roateWord raiseWord) 0]
      (by decide) (by decide)⟩

/-- Claim C4: monotonicity of filtering.  Appending one more `GuessResult` to
a history never grows the filtered candidate set. -/
theorem filterCandidates_mono (st : SolverState) (history : List GuessResult)
    (step : GuessResult) (w : Word)
    (hw : w ∈ filterCandidates st (history ++ [step])) :
    w ∈ filterCandidates st history := by
  unfold filterCandidates at hw ⊢
  obtain ⟨hmem, hall⟩ := List.mem_filter.mp hw
  refine List.mem_filter.mpr ⟨hmem, ?_⟩
  rw [List.all_eq_true] at hall ⊢
  intro h hh
  exact hall h (List.mem_append_left _ hh)

/-- Witness for claim C4: a concrete word surviving an extended history also
survives the shorter one. -/
theorem filterCandidates_mono_witness :
    raiseWord ∈ filterCandidates (SolverState.mk [raiseWord] [])
        ([] ++ [GuessResult.mk roateWord (scorePattern roateWord raiseWord) 0])
    ∧ raiseWord ∈ filterCandidates (SolverState.mk [raiseWord] []) [] :=
  ⟨by decide,
    filterCandidates_mono (SolverState.mk [raiseWord] []) []
      (GuessResult.mk roateWord (scorePattern roateWord raiseWord) 0) raiseWord (by decide)⟩

/-- Claim C10: `setWordLists` replaces the two runtime lists independently and
only when the corresponding argument is non-empty. -/
theorem setWordLists_independent (st : SolverState) (newAnswers newAllowed : List Word) :
    (newAnswers = [] → getAnswersList (setWordLists st newAnswers newAllowed) = getAnswersList st)
    ∧ (newAnswers ≠ [] → getAnswersList (setWordLists st newAnswers newAllowed) = newAnswers)
    ∧ (newAllowed = [] → getAllowedList (setWordLists st newAnswers newAllowed) = getAllowedList st)
    ∧ (newAllowed ≠ [] → getAllowedList (setWordLists st newAnswers newAllowed) = newAllowed) := by
  refine ⟨fun h => ?_, fun h => ?_, fun h => ?_, fun h => ?_⟩ <;>
    simp [setWordLists, getAnswersList, getAllowedList, List.length_pos, h]

/-- Witness for claim C10: replacing only the allowed list leaves the answers
list untouched, and vice versa. -/
theorem setWordLists_independent_witness :
    getAnswersList (setWordLists (SolverState.mk [raiseWord] []) [] [roateWord])
        = getAnswersList (SolverState.mk [raiseWord] [])
    ∧ getAllowedList (setWordLists (SolverState.mk [raiseWord] []) [] [roateWord]) = [roateWord]
    ∧ getAllowedList (setWordLists (SolverState.mk [raiseWord] [roateWord]) [raiseWord] [])
        = getAllowedList (SolverState.mk [raiseWord] [roateWord])
    ∧ getAnswersList (setWordLists (SolverState.mk [raiseWord] [roateWord]) [raiseWord] [])
        = [raiseWord] :=
  ⟨(setWordLists_independent (SolverState.mk [raiseWord] []) [] [roateWord]).1 rfl,
    (setWordLists_independent (SolverState.mk [raiseWord] []) [] [roateWord]).2.2.2 (by decide),
    (setWordLists_independent (SolverState.mk [raiseWord] [roateWord]) [raiseWord] []).2.2.1 rfl,
    (setWordLists_independent (SolverState.mk [raiseWord] [roateWord]) [raiseWord] []).2.1 (by decide)⟩

/-- JS `Set.add`: append the element unless already present (insertion order
is preserved, membership is what downstream code observes). -/
def addSet {α : Type} [DecidableEq α] (l : List α) (x : α) : List α :=
  if x ∈ l then l else l ++ [x]

/-- JS `Map.set`: update the entry in place when the key exists, else append. -/
def setAssoc {β : Type} (m : List (Char × β)) (k : Char) (v : β) : List (Char × β) :=
  if m.any (fun p => decide (p.1 = k)) then
    m.map (fun p => if p.1 = k then (p.1, v) else p)
  else m ++ [(k, v)]

/-- JS `Map.get`. -/
def getAssoc {β : Type} (m : List (Char × β)) (k : Char) : Option β :=
  (m.find? (fun p => decide (p.1 = k))).map (fun p => p.2)

/-- `minCount.set(ch, Math.max(minCount.get(ch) ?? 0, need))` in `deriveConstraints`. -/
def setAssocMax (m : List (Char × Nat)) (k : Char) (need : Nat) : List (Char × Nat) :=
  setAssoc m k (Nat.max ((getAssoc m k).getD 0) need)

/-- `seenAsB.set(ch, (seenAsB.get(ch) ?? 0) + tally.b)` in `deriveConstraints`. -/
def setAssocAdd (m : List (Char × Nat)) (k : Char) (v : Nat) : List (Char × Nat) :=
  setAssoc m k (((getAssoc m k).getD 0) + v)

/-- `addForbidden` in `deriveConstraints`: record an index as forbidden for a
letter (creating the letter's entry on first use). -/
def addForbidden (m : List (Char × List Nat)) (ch : Char) (idx : Nat) : List (Char × List Nat) :=
  if m.any (fun p => decide (p.1 = ch)) then
    m.map (fun p => if p.1 = ch then (p.1, addSet p.2 idx) else p)
  else m ++ [(ch, [idx])]

/-- The `Constraints` record of `solver.ts` (maps and sets as entry lists). -/
structure Constraints where
  fixed : List (Option Char)
  forbiddenPos : List (Char × List Nat)
  minCount : List (Char × Nat)
  excluded : List Char
  prevGuesses : List Word
  seenLetters : List Char
  deriving DecidableEq, Repr

/-- The accumulator threaded through `deriveConstraints`' history loop. -/
structure DeriveState where
  fixed : List (Option Char)
  forbiddenPos : List (Char × List Nat)
  minCount : List (Char × Nat)
  seenAsGY : List Char
  seenAsB : List (Char × Nat)
  prevGuesses : List Word
  seenLetters : List Char
  deriving DecidableEq, Repr

/-- The empty accumulator `deriveConstraints` starts from. -/
def initDeriveState : DeriveState :=
  ⟨[none, none, none, none, none], [], [], [], [], [], []⟩

/-- The per-position loop of one history step: greens fix letters, yellows
forbid positions, both record positive sightings; every letter is seen. -/
def processPositions : List (Nat × Char × PatternChar) → DeriveState → DeriveState
  | [], s => s
  | (i, gc, pc) :: rest, s =>
      processPositions rest
        (if pc = PatternChar.g then
          { s with seenLetters := addSet s.seenLetters gc,
                   fixed := s.fixed.set i (some gc),
                   seenAsGY := addSet s.seenAsGY gc }
         else if pc = PatternChar.y then
          { s with seenLetters := addSet s.seenLetters gc,
                   forbiddenPos := addForbidden s.forbiddenPos gc i,
                   seenAsGY := addSet s.seenAsGY gc }
         else
          { s with seenLetters := addSet s.seenLetters gc })

/-- The per-letter tally `tally.g + tally.y` of one step for one letter. -/
def needOf (step : GuessResult) (ch : Char) : Nat :=
  (step.guess.zip step.pattern).countP
    (fun p => decide (p.1 = ch) && (decide (p.2 = PatternChar.g) || decide (p.2 = PatternChar.y)))

/-- The per-letter tally `tally.b` of one step for one letter. -/
def bTallyOf (step : GuessResult) (ch : Char) : Nat :=
  (step.guess.zip step.pattern).countP
    (fun p => decide (p.1 = ch) && decide (p.2 = PatternChar.b))

/-- The distinct letters of a step's guess in first-occurrence order (the keys
of the step's `counts` record). -/
def lettersOf (step : GuessResult) : List Char :=
  ((step.guess.zip step.pattern).map Prod.fst).foldl addSet []

/-- The per-letter loop of one history step: positive tallies raise the
minimum count, black-only letters are recorded as black sightings. -/
def processCounts (step : GuessResult) : List Char → DeriveState → DeriveState
  | [], s => s
  | ch :: rest, s =>
      processCounts step rest
        (if 0 < needOf step ch then
          { s with minCount := setAssocMax s.minCount ch (needOf step ch) }
         else
          { s with seenAsB := setAssocAdd s.seenAsB ch (bTallyOf step ch) })

/-- Processing one history step: record the guess, run the position loop,
then the counts loop. -/
def processStep (s : DeriveState) (step : GuessResult) : DeriveState :=
  processCounts step (lettersOf step)
    (processPositions ((step.guess.zip step.pattern).enum)
      { s with prevGuesses := addSet s.prevGuesses step.guess })

/-- The history loop of `deriveConstraints`. -/
def deriveAux : List GuessResult → DeriveState → DeriveState
  | [], s => s
  | step :: rest, s => deriveAux rest (processStep s step)

/-- `deriveConstraints` from `solver.ts`: fold the history, then exclude the
letters seen only black (never green/yellow anywhere). -/
def deriveConstraints (history : List GuessResult) : Constraints :=
  { fixed := (deriveAux history initDeriveState).fixed,
    forbiddenPos := (deriveAux history initDeriveState).forbiddenPos,
    minCount := (deriveAux history initDeriveState).minCount,
    excluded := ((deriveAux history initDeriveState).seenAsB.map Prod.fst).filter
      (fun ch => decide (ch ∉ (deriveAux history initDeriveState).seenAsGY)),
    prevGuesses := (deriveAux history initDeriveState).prevGuesses,
    seenLetters := (deriveAux history initDeriveState).seenLetters }

/-- `fitsConstraints` from `solver.ts`: match every fixed position, avoid
every forbidden (letter, position) pair, contain no excluded letter, and meet
every minimum count. -/
def fitsConstraints (wordRaw : Word) (c : Constraints) : Bool :=
  ((c.fixed.zip (wordRaw.map Char.toLower)).all fun p =>
      match p.1 with
      | some ch => decide (p.2 = ch)
      | none => true)
    && (c.forbiddenPos.all fun p => p.2.all fun idx => !((wordRaw.map Char.toLower)[idx]? == some p.1))
    && (c.excluded.all fun ch => !((wordRaw.map Char.toLower).contains ch))
    && (c.minCount.all fun p => decide (p.2 ≤ (wordRaw.map Char.toLower).count p.1))

@[simp] theorem mem_addSet {α : Type} [DecidableEq α] (l : List α) (x y : α) :
    y ∈ addSet l x ↔ y ∈ l ∨ y = x := by
  unfold addSet
  by_cases h : x ∈ l
  · simp only [if_pos h]
    constructor
    · exact Or.inl
    · rintro (hy | rfl)
      · exact hy
      · exact h
  · simp [if_neg h]

/-- Mapping an entry-wise update that preserves keys preserves the key list. -/
theorem keys_map_preserve {β : Type} (m : List (Char × β)) (f : Char × β → Char × β)
    (hf : ∀ p, (f p).1 = p.1) : (m.map f).map Prod.fst = m.map Prod.fst := by
  induction m with
  | nil => rfl
  | cons hd tl ih => simp [hf, ih]

/-- Key membership after a JS `Map.set`. -/
theorem mem_keys_setAssoc {β : Type} (m : List (Char × β)) (k : Char) (v : β) (ch : Char) :
    ch ∈ (setAssoc m k v).map Prod.fst ↔ ch ∈ m.map Prod.fst ∨ ch = k := by
  unfold setAssoc
  by_cases h : m.any (fun p => decide (p.1 = k))
  · have hk : k ∈ m.map Prod.fst := by
      rw [List.any_eq_true] at h
      obtain ⟨p, hp, hpk⟩ := h
      rw [decide_eq_true_eq] at hpk
      exact hpk ▸ List.mem_map_of_mem Prod.fst hp
    rw [if_pos h, keys_map_preserve m _ (fun p => by by_cases hp : p.1 = k <;> simp [hp])]
    constructor
    · exact Or.inl
    · rintro (hy | rfl)
      · exact hy
      · exact hk
  · rw [if_neg h]
    simp

/-- Key membership after a black-sighting update. -/
theorem mem_keys_setAssocAdd (m : List (Char × Nat)) (k : Char) (v : Nat) (ch : Char) :
    ch ∈ (setAssocAdd m k v).map Prod.fst ↔ ch ∈ m.map Prod.fst ∨ ch = k := by
  unfold setAssocAdd
  exact mem_keys_setAssoc m k _ ch

theorem seenAsB_processPositions (l : List (Nat × Char × PatternChar)) :
    ∀ s : DeriveState, (processPositions l s).seenAsB = s.seenAsB := by
  induction l with
  | nil => intro s; rfl
  | cons hd tl ih =>
      intro s
      obtain ⟨i, gc, pc⟩ := hd
      cases pc <;> simp [processPositions, ih]

theorem seenAsGY_processCounts (step : GuessResult) (L : List Char) :
    ∀ s : DeriveState, (processCounts step L s).seenAsGY = s.seenAsGY := by
  induction L with
  | nil => intro s; rfl
  | cons hd tl ih =>
      intro s
      by_cases h : 0 < needOf step hd <;> simp [processCounts, h, ih]

/-- Positive sightings collected by the position loop of one step. -/
theorem mem_seenAsGY_processPositions (l : List (Nat × Char × PatternChar)) :
    ∀ (s : DeriveState) (ch : Char),
      ch ∈ (processPositions l s).seenAsGY ↔
        ch ∈ s.seenAsGY
          ∨ ∃ e ∈ l, e.2.1 = ch ∧ (e.2.2 = PatternChar.g ∨ e.2.2 = PatternChar.y) := by
  induction l with
  | nil => intro s ch; simp [processPositions]
  | cons hd tl ih =>
      intro s ch
      obtain ⟨i, gc, pc⟩ := hd
      cases pc
      · rw [show processPositions ((i, gc, PatternChar.g) :: tl) s
              = processPositions tl
                  { s with seenLetters := addSet s.seenLetters gc,
                           fixed := s.fixed.set i (some gc),
                           seenAsGY := addSet s.seenAsGY gc } from rfl]
        rw [ih]
        simp only [mem_addSet]
        simp only [List.mem_cons]
        constructor
        · rintro ((h1 | rfl) | ⟨e, he, h1, h2⟩)
          · exact Or.inl h1
          · exact Or.inr ⟨(i, ch, PatternChar.g), Or.inl rfl, rfl, Or.inl rfl⟩
          · exact Or.inr ⟨e, Or.inr he, h1, h2⟩
        · rintro (h1 | ⟨e, (rfl | he), h1, h2⟩)
          · exact Or.inl (Or.inl h1)
          · exact Or.inl (Or.inr h1.symm)
          · exact Or.inr ⟨e, he, h1, h2⟩
      · rw [show processPositions ((i, gc, PatternChar.y) :: tl) s
              = processPositions tl
                  { s with seenLetters := addSet s.seenLetters gc,
                           forbiddenPos := addForbidden s.forbiddenPos gc i,
                           seenAsGY := addSet s.seenAsGY gc } from rfl]
        rw [ih]
        simp only [mem_addSet]
        simp only [List.mem_cons]
        constructor
        · rintro ((h1 | rfl) | ⟨e, he, h1, h2⟩)
          · exact Or.inl h1
          · exact Or.inr ⟨(i, ch, PatternChar.y), Or.inl rfl, rfl, Or.inr rfl⟩
          · exact Or.inr ⟨e, Or.inr he, h1, h2⟩
        · rintro (h1 | ⟨e, (rfl | he), h1, h2⟩)
          · exact Or.inl (Or.inl h1)
          · exact Or.inl (Or.inr h1.symm)
          · exact Or.inr ⟨e, he, h1, h2⟩
      · rw [show processPositions ((i, gc, PatternChar.b) :: tl) s
              = processPositions tl
                  { s with seenLetters := addSet s.seenLetters gc } from rfl]
        rw [ih]
        constructor
        · rintro (h1 | ⟨e, he, h1, h2⟩)
          · exact Or.inl h1
          · exact Or.inr ⟨e, List.mem_cons_of_mem _ he, h1, h2⟩
        · rintro (h1 | ⟨e, he, h1, h2⟩)
          · exact Or.inl h1
          · rcases List.mem_cons.mp he with rfl | he2
            · rcases h2 with h2 | h2 <;> simp at h2
            · exact Or.inr ⟨e, he2, h1, h2⟩

/-- Black-only sightings collected by the counts loop of one step. -/
theorem mem_seenAsB_processCounts (step : GuessResult) (L : List Char) :
    ∀ (s : DeriveState) (ch : Char),
      ch ∈ (processCounts step L s).seenAsB.map Prod.fst ↔
        ch ∈ s.seenAsB.map Prod.fst ∨ (ch ∈ L ∧ needOf step ch = 0) := by
  induction L with
  | nil => intro s ch; simp [processCounts]
  | cons hd tl ih =>
      intro s ch
      by_cases h : 0 < needOf step hd
      · simp only [processCounts, if_pos h]
        rw [ih]
        simp only [List.mem_cons]
        constructor
        · rintro (hy | ⟨h1, h2⟩)
          · exact Or.inl hy
          · exact Or.inr ⟨Or.inr h1, h2⟩
        · rintro (hy | ⟨rfl | h1, h2⟩)
          · exact Or.inl hy
          · omega
          · exact Or.inr ⟨h1, h2⟩
      · simp only [processCounts, if_neg h]
        rw [ih]
        simp only [mem_keys_setAssocAdd, List.mem_cons]
        constructor
        · rintro ((hy | rfl) | ⟨h1, h2⟩)
          · exact Or.inl hy
          · exact Or.inr ⟨Or.inl rfl, by omega⟩
          · exact Or.inr ⟨Or.inr h1, h2⟩
        · rintro (hy | ⟨rfl | h1, h2⟩)
          · exact Or.inl (Or.inl hy)
          · exact Or.inl (Or.inr rfl)
          · exact Or.inr ⟨h1, h2⟩

/-- Enumerating a list does not change which elements satisfy a property. -/
theorem exists_mem_enum {α : Type} (l : List α) (Q : α → Prop) :
    (∃ e ∈ l.enum, Q e.2) ↔ ∃ x ∈ l, Q x := by
  constructor
  · rintro ⟨e, he, hq⟩
    refine ⟨e.2, ?_, hq⟩
    have h2 := List.mem_map_of_mem Prod.snd he
    rwa [List.enum_map_snd] at h2
  · rintro ⟨x, hx, hq⟩
    have h2 : x ∈ l.enum.map Prod.snd := by rwa [List.enum_map_snd]
    obtain ⟨e, he, rfl⟩ := List.mem_map.mp h2
    exact ⟨e, he, hq⟩

/-- Positive sightings accumulated over a whole history. -/
theorem mem_seenAsGY_deriveAux (hist : List GuessResult) :
    ∀ (s : DeriveState) (ch : Char),
      ch ∈ (deriveAux hist s).seenAsGY ↔
        ch ∈ s.seenAsGY
          ∨ ∃ step ∈ hist, ∃ p ∈ step.guess.zip step.pattern,
              p.1 = ch ∧ (p.2 = PatternChar.g ∨ p.2 = PatternChar.y) := by
  induction hist with
  | nil => intro s ch; simp [deriveAux]
  | cons hd tl ih =>
      intro s ch
      simp only [deriveAux]
      rw [ih]
      unfold processStep
      rw [seenAsGY_processCounts, mem_seenAsGY_processPositions]
      rw [exists_mem_enum (hd.guess.zip hd.pattern)
            (fun q => q.1 = ch ∧ (q.2 = PatternChar.g ∨ q.2 = PatternChar.y))]
      simp only [List.mem_cons]
      constructor
      · rintro ((hy | hhd) | ⟨step, hstep, hrest⟩)
        · exact Or.inl hy
        · exact Or.inr ⟨hd, Or.inl rfl, hhd⟩
        · exact Or.inr ⟨step, Or.inr hstep, hrest⟩
      · rintro (hy | ⟨step, (rfl | hstep), hrest⟩)
        · exact Or.inl (Or.inl hy)
        · exact Or.inl (Or.inr hrest)
        · exact Or.inr ⟨step, hstep, hrest⟩

/-- Black-only sightings accumulated over a whole history. -/
theorem mem_seenAsB_deriveAux (hist : List GuessResult) :
    ∀ (s : DeriveState) (ch : Char),
      ch ∈ (deriveAux hist s).seenAsB.map Prod.fst ↔
        ch ∈ s.seenAsB.map Prod.fst
          ∨ ∃ step ∈ hist, ch ∈ lettersOf step ∧ needOf step ch = 0 := by
  induction hist with
  | nil => intro s ch; simp [deriveAux]
  | cons hd tl ih =>
      intro s ch
      simp only [deriveAux]
      rw [ih]
      unfold processStep
      rw [mem_seenAsB_processCounts]
      rw [seenAsB_processPositions]
      simp only [List.mem_cons]
      constructor
      · rintro ((hy | hhd) | ⟨step, hstep, hrest⟩)
        · exact Or.inl hy
        · exact Or.inr ⟨hd, Or.inl rfl, hhd⟩
        · exact Or.inr ⟨step, Or.inr hstep, hrest⟩
      · rintro (hy | ⟨step, (rfl | hstep), hrest⟩)
        · exact Or.inl (Or.inl hy)
        · exact Or.inl (Or.inr hrest)
        · exact Or.inr ⟨step, hstep, hrest⟩

theorem mem_foldl_addSet {α : Type} [DecidableEq α] (l : List α) :
    ∀ (acc : List α) (x : α), x ∈ l.foldl addSet acc ↔ x ∈ acc ∨ x ∈ l := by
  induction l with
  | nil => intro acc x; simp
  | cons hd tl ih =>
      intro acc x
      simp only [List.foldl_cons]
      rw [ih, mem_addSet]
      simp only [List.mem_cons]
      tauto

/-- A letter is a key of a step's tally record exactly when it occurs in the
(zipped) guess. -/
theorem mem_lettersOf (step : GuessResult) (ch : Char) :
    ch ∈ lettersOf step ↔ ch ∈ (step.guess.zip step.pattern).map Prod.fst := by
  unfold lettersOf
  rw [mem_foldl_addSet]
  simp

theorem not_g_not_y (pc : PatternChar) :
    (¬pc = PatternChar.g ∧ ¬pc = PatternChar.y) ↔ pc = PatternChar.b := by
  cases pc <;> simp

/-- A letter needs nothing in a step exactly when all of its marks there are
Absent. -/
theorem needOf_eq_zero (step : GuessResult) (ch : Char) :
    needOf step ch = 0 ↔
      ∀ p ∈ step.guess.zip step.pattern, p.1 = ch → p.2 = PatternChar.b := by
  unfold needOf
  rw [List.countP_eq_zero]
  constructor
  · intro h p hp hch
    have h2 := h p hp
    rw [← not_g_not_y]
    constructor
    · intro hg
      exact h2 (by simp [hch, hg])
    · intro hy
      exact h2 (by simp [hch, hy])
  · intro h p hp
    by_cases hch : p.1 = ch
    · have h2 := h p hp hch
      simp [hch, h2]
    · simp [hch]

/-- Black-only key membership over a history started from the empty state. -/
theorem mem_seenAsB_derived (history : List GuessResult) (ch : Char) :
    ch ∈ (deriveAux history initDeriveState).seenAsB.map Prod.fst ↔
      ∃ step ∈ history, ch ∈ lettersOf step ∧ needOf step ch = 0 := by
  rw [mem_seenAsB_deriveAux]
  constructor
  · rintro (h | h)
    · simp [initDeriveState] at h
    · exact h
  · exact Or.inr

/-- Positive-sighting membership over a history started from the empty state. -/
theorem mem_seenAsGY_derived (history : List GuessResult) (ch : Char) :
    ch ∈ (deriveAux history initDeriveState).seenAsGY ↔
      ∃ step ∈ history, ∃ p ∈ step.guess.zip step.pattern,
        p.1 = ch ∧ (p.2 = PatternChar.g ∨ p.2 = PatternChar.y) := by
  rw [mem_seenAsGY_deriveAux]
  constructor
  · rintro (h | h)
    · simp [initDeriveState] at h
    · exact h
  · exact Or.inr

/-- Membership in the excluded set, before translating the accumulators. -/
theorem mem_excluded_derived (history : List GuessResult) (ch : Char) :
    ch ∈ (deriveConstraints history).excluded ↔
      (ch ∈ (deriveAux history initDeriveState).seenAsB.map Prod.fst
        ∧ ch ∉ (deriveAux history initDeriveState).seenAsGY) := by
  simp only [deriveConstraints]
  rw [List.mem_filter, decide_eq_true_eq]

/-- Claim C8: the excluded set of `deriveConstraints` contains exactly the
letters that occur in some guess of the history and received only Absent
marks across the entire history; a letter scored Correct or Present anywhere
is never excluded. -/
theorem deriveConstraints_excluded_iff (history : List GuessResult)
    (hwf : ∀ step ∈ history, step.guess.length = 5 ∧ step.pattern.length = 5)
    (ch : Char) :
    ch ∈ (deriveConstraints history).excluded ↔
      ((∃ step ∈ history, ch ∈ step.guess)
        ∧ ∀ step ∈ history, ∀ p ∈ step.guess.zip step.pattern,
            p.1 = ch → p.2 = PatternChar.b) := by
  rw [mem_excluded_derived, mem_seenAsB_derived, mem_seenAsGY_derived]
  constructor
  · rintro ⟨⟨step0, hstep0, hlet, hneed⟩, hngy⟩
    constructor
    · refine ⟨step0, hstep0, ?_⟩
      rw [mem_lettersOf] at hlet
      obtain ⟨p, hp, rfl⟩ := List.mem_map.mp hlet
      obtain ⟨c1, c2⟩ := p
      exact (List.of_mem_zip hp).1
    · intro step hstep p hp hch
      rw [← not_g_not_y]
      constructor
      · intro hg
        exact hngy ⟨step, hstep, p, hp, hch, Or.inl hg⟩
      · intro hy
        exact hngy ⟨step, hstep, p, hp, hch, Or.inr hy⟩
  · rintro ⟨⟨step0, hstep0, hch⟩, hallb⟩
    constructor
    · refine ⟨step0, hstep0, ?_, ?_⟩
      · rw [mem_lettersOf]
        rw [List.map_fst_zip _ _ (by
          obtain ⟨h1, h2⟩ := hwf step0 hstep0
          omega)]
        exact hch
      · rw [needOf_eq_zero]
        exact hallb step0 hstep0
    · rintro ⟨step, hstep, p, hp, hpch, hgy⟩
      have hb := hallb step hstep p hp hpch
      rcases hgy with hg | hy
      · rw [hb] at hg; exact absurd hg (by simp)
      · rw [hb] at hy; exact absurd hy (by simp)

/-- Witness for claim C8: in the one-step history scoring roate against
raise, the letter o received only Absent marks and is excluded. -/
theorem deriveConstraints_excluded_iff_witness :
    (∀ step ∈ [GuessResult.mk roateWord (scorePattern roateWord raiseWord) 0],
        step.guess.length = 5 ∧ step.pattern.length = 5)
    ∧ ('o' ∈ (deriveConstraints
          [GuessResult.mk roateWord (scorePattern roateWord raiseWord) 0]).excluded ↔
        ((∃ step ∈ [GuessResult.mk roateWord (scorePattern roateWord raiseWord) 0],
            'o' ∈ step.guess)
          ∧ ∀ step ∈ [GuessResult.mk roateWord (scorePattern roateWord raiseWord) 0],
              ∀ p ∈ step.guess.zip step.pattern,
                p.1 = 'o' → p.2 = PatternChar.b)) :=
  ⟨by decide,
    deriveConstraints_excluded_iff
      [GuessResult.mk roateWord (scorePattern roateWord raiseWord) 0] (by decide) 'o'⟩

/-- `getLetterFreq` from `solver.ts`: the number of allowed words containing
a letter (each word contributes its distinct letters once). -/
def letterFreq (st : SolverState) (ch : Char) : Nat :=
  st.runtimeAllowed.countP (fun w => w.contains ch)

/-- The per-letter accumulation loop of `scoreExploration` (distinct letters
only, seen letters weighted by 0.25). -/
def scoreExplorationBase (st : SolverState) (c : Constraints) (word : Word) : ℚ :=
  (word.foldl
    (fun acc ch =>
      if ch ∈ acc.1 then acc
      else (acc.1 ++ [ch],
        acc.2 + (letterFreq st ch : ℚ) * (if ch ∈ c.seenLetters then 1/4 else 1)))
    (([] : List Char), (0 : ℚ))).2

/-- `scoreExploration` from `solver.ts`, in exact rational arithmetic (the
JavaScript float computation on quarter-integers of this size is exact). -/
def scoreExploration (st : SolverState) (c : Constraints) (word : Word) : ℚ :=
  if word ∈ c.prevGuesses then scoreExplorationBase st c word - 1000
  else scoreExplorationBase st c word

/-- The JS stable `sort((a, b) => key(b) - key(a))`: descending by rational key. -/
def sortByKeyDesc {α : Type} (f : α → ℚ) (l : List α) : List α :=
  @List.insertionSort α (fun a b => f b ≤ f a)
    (fun a b => inferInstanceAs (Decidable (f b ≤ f a))) l

theorem sortByKeyDesc_sorted {α : Type} (f : α → ℚ) (l : List α) :
    List.Sorted (fun a b => f b ≤ f a) (sortByKeyDesc f l) := by
  haveI : IsTotal α (fun a b => f b ≤ f a) := ⟨fun a b => le_total (f b) (f a)⟩
  haveI : IsTrans α (fun a b => f b ≤ f a) := ⟨fun a b c hab hbc => le_trans hbc hab⟩
  exact List.sorted_insertionSort _ l

theorem sortByKeyDesc_perm {α : Type} (f : α → ℚ) (l : List α) :
    List.Perm (sortByKeyDesc f l) l :=
  List.perm_insertionSort _ l

/-- The untried, constraint-fitting pool of `fallbackExplorationGuess`. -/
def fallbackPool (st : SolverState) (history : List GuessResult) : List Word :=
  st.runtimeAllowed.filter (fun w =>
    !((deriveConstraints history).prevGuesses.contains w)
      && fitsConstraints w (deriveConstraints history))

/-- The last-resort pool of `fallbackExplorationGuess`: untried words avoiding
only excluded letters. -/
def fallbackAlt (st : SolverState) (history : List GuessResult) : List Word :=
  st.runtimeAllowed.filter (fun w =>
    !((deriveConstraints history).prevGuesses.contains w)
      && !(w.any (fun ch => (deriveConstraints history).excluded.contains ch)))

/-- `fallbackExplorationGuess` from `solver.ts`: rank the fitting pool by
exploration score; if that pool is empty, rank the last-resort pool and fall
back to the fixed word "raise" when even that is empty. -/
def fallbackExplorationGuess (st : SolverState) (history : List GuessResult) : Word :=
  if (fallbackPool st history).length = 0 then
    (sortByKeyDesc (scoreExploration st (deriveConstraints history))
      (fallbackAlt st history)).headD raiseWord
  else
    (sortByKeyDesc (scoreExploration st (deriveConstraints history))
      (fallbackPool st history)).headD []

/-- The exploratory allowed words of `pickNextGuess`: untried, fitting the
current constraints, capped at 120. -/
def exploratoryAllowed (st : SolverState) (history : List GuessResult) : List Word :=
  (st.runtimeAllowed.filter (fun w =>
    !((deriveConstraints history).prevGuesses.contains w)
      && fitsConstraints w (deriveConstraints history))).take 120

/-- The `informativePool` built by `pickNextGuess`: up to 120 candidates in
corpus order and, only when more than two candidates remain, the exploratory
allowed words not already present. -/
def informativePool (st : SolverState) (candidates : List Word)
    (history : List GuessResult) : List Word :=
  if 2 < candidates.length then
    (exploratoryAllowed st history).foldl
      (fun pool w => if w ∈ pool then pool else pool ++ [w])
      (candidates.take (if 120 < candidates.length then 120 else candidates.length))
  else candidates.take (if 120 < candidates.length then 120 else candidates.length)

/-- Modelled from the spec: the evaluation pool exactly as §4.5 and claim C7
word it — the first min(|candidates|, 120) candidates in corpus order, plus
up to 120 untried allowed words satisfying the current constraints, with
duplicates removed. -/
def specPool (st : SolverState) (candidates : List Word)
    (history : List GuessResult) : List Word :=
  candidates.take (min candidates.length 120)
    ++ (exploratoryAllowed st history).filter
        (fun w => decide (w ∉ candidates.take (min candidates.length 120)))

/-- Every pool entry paired with its score (the JS `scored` array). -/
def scoredPool (score : Word → ℚ) (st : SolverState) (candidates : List Word)
    (history : List GuessResult) : List (Word × ℚ) :=
  (informativePool st candidates history).map (fun w => (w, score w))

/-- The scored pool sorted descending by score (`scored.sort(...)`). -/
def sortedScoredPool (score : Word → ℚ) (st : SolverState) (candidates : List Word)
    (history : List GuessResult) : List (Word × ℚ) :=
  sortByKeyDesc Prod.snd (scoredPool score st candidates history)

/-- The top element of the sorted scored pool (`scored[0]`). -/
def topScored (score : Word → ℚ) (st : SolverState) (candidates : List Word)
    (history : List GuessResult) : Word × ℚ :=
  (sortedScoredPool score st candidates history).headD ([], 0)

/-- The closing decision of `pickNextGuess` when the top scorer is not a
candidate: prefer the first candidate found in sorted order if its score is
within 0.35 of the top score. -/
def biasChoice (top : Word × ℚ) : Option (Word × ℚ) → Word
  | some bestCandidate =>
      if top.2 - bestCandidate.2 < 35/100 then bestCandidate.1 else top.1
  | none => top.1

/-- `pickNextGuess` from `solver.ts`, parameterized by the rational scoring
function abstracting `scoreWordWithConstraints(word, candidates, cs).score`. -/
def pickNextGuess (score : Word → ℚ) (st : SolverState) (candidates : List Word)
    (history : List GuessResult) : Word :=
  if 0 < candidates.length then
    if candidates.length = 1 then candidates.headD []
    else
      if (topScored score st candidates history).1 ∈ candidates then
        (topScored score st candidates history).1
      else
        biasChoice (topScored score st candidates history)
          ((sortedScoredPool score st candidates history).find?
            (fun q => decide (q.1 ∈ candidates)))
  else fallbackExplorationGuess st history

/-- A handful of concrete words for witnesses and counterexamples. -/
def appleWord : Word := ['a', 'p', 'p', 'l', 'e']

def ampleWord : Word := ['a', 'm', 'p', 'l', 'e']

def ankleWord : Word := ['a', 'n', 'k', 'l', 'e']

def crateWord : Word := ['c', 'r', 'a', 't', 'e']

theorem sample_take_eq (n : Nat) : (if 120 < n then 120 else n) = min n 120 := by
  split <;> omega

/-- The dedup-append loop equals appending the not-yet-present elements, for
a duplicate-free input list. -/
theorem foldl_dedup_append (ws : List Word) :
    ∀ base : List Word, ws.Nodup →
      ws.foldl (fun pool w => if w ∈ pool then pool else pool ++ [w]) base
        = base ++ ws.filter (fun w => decide (w ∉ base)) := by
  induction ws with
  | nil => intro base _; simp
  | cons hd tl ih =>
      intro base hnd
      obtain ⟨hhd, htl⟩ := List.nodup_cons.mp hnd
      simp only [List.foldl_cons]
      by_cases hb : hd ∈ base
      · rw [if_pos hb, ih base htl]
        simp [List.filter_cons, hb]
      · rw [if_neg hb, ih (base ++ [hd]) htl]
        have hfilter : tl.filter (fun w => decide (w ∉ base ++ [hd]))
            = tl.filter (fun w => decide (w ∉ base)) := by
          apply List.filter_congr
          intro x hx
          have hxne : x ≠ hd := fun hcontra => hhd (hcontra ▸ hx)
          simp [List.mem_append, hxne]
        rw [hfilter]
        rw [List.filter_cons]
        simp only [hb, decide_not, List.append_assoc, List.singleton_append]
        simp [hb]

/-- Counterexample to claim C7 as stated: with exactly two candidates and an
untried allowed word fitting the (empty) constraints, the pool `pickNextGuess`
scores omits the exploratory word that the claimed description includes. -/
theorem informativePool_pair_cex :
    informativePool (SolverState.mk [] [crateWord]) [appleWord, ampleWord] []
      ≠ specPool (SolverState.mk [] [crateWord]) [appleWord, ampleWord] [] := by
  decide

/-- Claim C7 (amended): whenever `pickNextGuess` is called with more than two
candidates (the code adds exploratory words only above two, not above one)
and the allowed list is duplicate-free, the pool it scores is exactly the
first min(|candidates|, 120) candidates in corpus order plus the first up to
120 untried, constraint-satisfying allowed words, with duplicates removed. -/
theorem informativePool_eq_specPool (st : SolverState) (candidates : List Word)
    (history : List GuessResult) (h3 : 2 < candidates.length)
    (hnd : st.runtimeAllowed.Nodup) :
    informativePool st candidates history = specPool st candidates history := by
  unfold informativePool specPool
  rw [if_pos h3, sample_take_eq]
  exact foldl_dedup_append _ _ ((List.take_sublist _ _).nodup (hnd.filter _))

/-- Witness for claim C7's amended statement: three candidates, duplicate-free
allowed list. -/
theorem informativePool_eq_specPool_witness :
    (2 < ([appleWord, ampleWord, ankleWord] : List Word).length
      ∧ ([crateWord] : List Word).Nodup)
    ∧ informativePool (SolverState.mk [] [crateWord]) [appleWord, ampleWord, ankleWord] []
        = specPool (SolverState.mk [] [crateWord]) [appleWord, ampleWord, ankleWord] [] :=
  ⟨⟨by decide, by decide⟩,
    informativePool_eq_specPool (SolverState.mk [] [crateWord])
      [appleWord, ampleWord, ankleWord] [] (by decide) (by decide)⟩

/-- Claim C9: `pickNextGuess` is total; in particular, with no candidates and
both fallback pools filtered to empty it returns the fixed default "raise". -/
theorem pickNextGuess_default_raise (score : Word → ℚ) (st : SolverState)
    (history : List GuessResult)
    (hpool : fallbackPool st history = [])
    (halt : fallbackAlt st history = []) :
    pickNextGuess score st [] history = raiseWord := by
  unfold pickNextGuess
  rw [if_neg (by simp)]
  unfold fallbackExplorationGuess
  rw [hpool, halt]
  rfl

/-- Witness for claim C9: an empty allowed list filters to empty pools. -/
theorem pickNextGuess_default_raise_witness :
    (fallbackPool (SolverState.mk [] []) [] = [] ∧ fallbackAlt (SolverState.mk [] []) [] = [])
    ∧ pickNextGuess (fun _ => 0) (SolverState.mk [] []) [] [] = raiseWord :=
  ⟨⟨by decide, by decide⟩,
    pickNextGuess_default_raise (fun _ => 0) (SolverState.mk [] []) [] (by decide) (by decide)⟩

/-- `find?` on a descending-sorted list returns a maximal satisfying element. -/
theorem find?_max_of_sorted {α : Type} (f : α → ℚ) (p : α → Bool) :
    ∀ l : List α, List.Sorted (fun a b => f b ≤ f a) l →
      ∀ bc, l.find? p = some bc → ∀ s ∈ l, p s = true → f s ≤ f bc := by
  intro l
  induction l with
  | nil =>
      intro _ bc hbc
      simp at hbc
  | cons hd tl ih =>
      intro hsort bc hbc s hs hps
      cases hphd : p hd
      · rw [List.find?_cons_of_neg _ (by simp [hphd])] at hbc
        rcases List.mem_cons.mp hs with rfl | hs2
        · rw [hphd] at hps
          exact absurd hps (by simp)
        · exact ih (List.sorted_cons.mp hsort).2 bc hbc s hs2 hps
      · rw [List.find?_cons_of_pos _ (by simp [hphd])] at hbc
        obtain rfl := Option.some_inj.mp hbc
        rcases List.mem_cons.mp hs with rfl | hs2
        · exact le_refl _
        · exact (List.sorted_cons.mp hsort).1 s hs2

/-- The head of a non-empty descending-sorted list has maximal key. -/
theorem head_max_of_sorted {α : Type} (f : α → ℚ) (l : List α) (d : α)
    (hsort : List.Sorted (fun a b => f b ≤ f a) l) (hne : l ≠ []) :
    ∀ s ∈ l, f s ≤ f (l.headD d) := by
  cases l with
  | nil => exact absurd rfl hne
  | cons hd tl =>
      intro s hs
      rcases List.mem_cons.mp hs with rfl | hs2
      · exact le_refl _
      · exact (List.sorted_cons.mp hsort).1 s hs2

/-- The dedup-append loop never shrinks the accumulated pool. -/
theorem foldl_dedup_length_le (ws : List Word) :
    ∀ base : List Word,
      base.length ≤
        (ws.foldl (fun pool w => if w ∈ pool then pool else pool ++ [w]) base).length := by
  induction ws with
  | nil => intro base; simp
  | cons hd tl ih =>
      intro base
      simp only [List.foldl_cons]
      by_cases hb : hd ∈ base
      · rw [if_pos hb]
        exact ih base
      · rw [if_neg hb]
        calc base.length ≤ (base ++ [hd]).length := by simp
          _ ≤ _ := ih (base ++ [hd])

/-- The evaluation pool keeps at least the candidate sample. -/
theorem informativePool_length (st : SolverState) (candidates : List Word)
    (history : List GuessResult) :
    min candidates.length 120 ≤ (informativePool st candidates history).length := by
  unfold informativePool
  by_cases h : 2 < candidates.length
  · rw [if_pos h]
    refine le_trans ?_ (foldl_dedup_length_le _ _)
    rw [List.length_take]
    split <;> omega
  · rw [if_neg h, List.length_take]
    split <;> omega

/-- Claim C6: bias rule of guess selection.  With at least two candidates and
a top scorer that is not itself a candidate, the top entry dominates every
score; if some scored candidate is within 0.35 of the top score the selector
returns a maximal-scoring candidate from the pool, otherwise it returns the
top scorer. -/
theorem pickNextGuess_bias_rule (score : Word → ℚ) (st : SolverState)
    (candidates : List Word) (history : List GuessResult)
    (h2 : 2 ≤ candidates.length)
    (hbest : (topScored score st candidates history).1 ∉ candidates) :
    (∀ s ∈ scoredPool score st candidates history,
        s.2 ≤ (topScored score st candidates history).2)
    ∧ ((∃ s ∈ scoredPool score st candidates history,
          s.1 ∈ candidates ∧ (topScored score st candidates history).2 - s.2 < 35/100) →
        ∃ bc ∈ scoredPool score st candidates history,
          bc.1 ∈ candidates
            ∧ pickNextGuess score st candidates history = bc.1
            ∧ ∀ s ∈ scoredPool score st candidates history,
                s.1 ∈ candidates → s.2 ≤ bc.2)
    ∧ ((¬∃ s ∈ scoredPool score st candidates history,
          s.1 ∈ candidates ∧ (topScored score st candidates history).2 - s.2 < 35/100) →
        pickNextGuess score st candidates history
          = (topScored score st candidates history).1) := by
  have hsort : List.Sorted (fun a b => Prod.snd b ≤ Prod.snd a)
      (sortedScoredPool score st candidates history) := by
    unfold sortedScoredPool
    exact sortByKeyDesc_sorted Prod.snd _
  have hperm : List.Perm (sortedScoredPool score st candidates history)
      (scoredPool score st candidates history) := by
    unfold sortedScoredPool
    exact sortByKeyDesc_perm Prod.snd _
  have hlenpos : 0 < (sortedScoredPool score st candidates history).length := by
    rw [hperm.length_eq]
    unfold scoredPool
    rw [List.length_map]
    have hmin := informativePool_length st candidates history
    omega
  have hne : sortedScoredPool score st candidates history ≠ [] := by
    intro hcontra
    rw [hcontra] at hlenpos
    simp at hlenpos
  have hmax : ∀ s ∈ scoredPool score st candidates history,
      s.2 ≤ (topScored score st candidates history).2 := by
    intro s hs
    exact head_max_of_sorted Prod.snd _ ([], 0) hsort hne s (hperm.mem_iff.mpr hs)
  refine ⟨hmax, ?_, ?_⟩
  · rintro ⟨s, hs, hscand, hclose⟩
    have hfind_some :
        ((sortedScoredPool score st candidates history).find?
          (fun q => decide (q.1 ∈ candidates))).isSome := by
      rw [List.find?_isSome]
      exact ⟨s, hperm.mem_iff.mpr hs, by simp [hscand]⟩
    obtain ⟨bc, hfind⟩ := Option.isSome_iff_exists.mp hfind_some
    have hbc_cand : bc.1 ∈ candidates := by
      have hp := List.find?_some hfind
      simpa using hp
    have hbc_mem : bc ∈ scoredPool score st candidates history :=
      hperm.mem_iff.mp (List.mem_of_find?_eq_some hfind)
    have hbc_max : ∀ q ∈ scoredPool score st candidates history,
        q.1 ∈ candidates → q.2 ≤ bc.2 := by
      intro q hq hqcand
      exact find?_max_of_sorted Prod.snd _ _ hsort bc hfind q
        (hperm.mem_iff.mpr hq) (by simp [hqcand])
    refine ⟨bc, hbc_mem, hbc_cand, ?_, hbc_max⟩
    have hlt : (topScored score st candidates history).2 - bc.2 < 35/100 := by
      have hsb := hbc_max s hs hscand
      linarith
    unfold pickNextGuess
    rw [if_pos (by omega), if_neg (by omega), if_neg hbest, hfind]
    simp only [biasChoice]
    rw [if_pos hlt]
  · intro hnex
    unfold pickNextGuess
    rw [if_pos (by omega), if_neg (by omega), if_neg hbest]
    cases hfind : (sortedScoredPool score st candidates history).find?
        (fun q => decide (q.1 ∈ candidates)) with
    | none => rfl
    | some bc =>
        have hbc_cand : bc.1 ∈ candidates := by
          have hp := List.find?_some hfind
          simpa using hp
        have hbc_mem : bc ∈ scoredPool score st candidates history :=
          hperm.mem_iff.mp (List.mem_of_find?_eq_some hfind)
        have hnotlt : ¬((topScored score st candidates history).2 - bc.2 < 35/100) := by
          intro hlt
          exact hnex ⟨bc, hbc_mem, hbc_cand, hlt⟩
        simp only [biasChoice]
        rw [if_neg hnotlt]

/-- The scoring function used by the C6 witness: the non-candidate crate far
outscores every candidate. -/
def biasScore (w : Word) : ℚ :=
  if w = crateWord then 1 else 0

/-- The corpus state used by the C6 witness. -/
def biasState : SolverState :=
  SolverState.mk [] [crateWord]

/-- The candidate list used by the C6 witness. -/
def biasCands : List Word :=
  [appleWord, ampleWord, ankleWord]

/-- Witness for claim C6 at a concrete state: the top scorer is a
non-candidate far above every candidate, so the selector keeps it. -/
theorem pickNextGuess_bias_rule_witness :
    (2 ≤ biasCands.length ∧ (topScored biasScore biasState biasCands []).1 ∉ biasCands)
    ∧ pickNextGuess biasScore biasState biasCands []
        = (topScored biasScore biasState biasCands []).1 :=
  ⟨⟨by decide, by decide⟩,
    (pickNextGuess_bias_rule biasScore biasState biasCands [] (by decide) (by decide)).2.2
      (by
        rintro ⟨s, hs, hcand, hlt⟩
        have hpool : scoredPool biasScore biasState biasCands []
            = [(appleWord, 0), (ampleWord, 0), (ankleWord, 0), (crateWord, 1)] := rfl
        have htop : topScored biasScore biasState biasCands [] = (crateWord, 1) := rfl
        rw [hpool] at hs
        rw [htop] at hlt
        simp only [List.mem_cons, List.not_mem_nil, or_false] at hs
        rcases hs with rfl | rfl | rfl | rfl
        · norm_num at hlt
        · norm_num at hlt
        · norm_num at hlt
        · exact absurd hcand (by decide))⟩

/-- The guess issued on a given turn of `solve`: the fixed opener "roate" on
turn 0, otherwise the selector's pick; lowercased as in the source. -/
def nextGuess (score : Word → ℚ) (st : SolverState) (turn : Nat)
    (cands : List Word) (steps : List GuessResult) : Word :=
  (if turn = 0 then roateWord else pickNextGuess score st cands steps).map Char.toLower

/-- One turn's `GuessResult` in `solve`: the scored pattern and the number of
candidates remaining once the new step is included. -/
def stepResult (st : SolverState) (guess : Word) (answer : Word)
    (steps : List GuessResult) : GuessResult :=
  GuessResult.mk guess (scorePattern guess answer)
    (filterCandidates st (steps ++ [GuessResult.mk guess (scorePattern guess answer) 0])).length

/-- The turn loop of `solve`; the fuel counts the remaining turns of the six,
success is declared exactly when the issued guess equals the answer. -/
def solveLoop (score : Word → ℚ) (st : SolverState) (answer : Word) :
    Nat → Nat → List GuessResult → List Word → SolveSummary
  | 0, _, steps, _ => SolveSummary.mk false answer steps
  | fuel + 1, turn, steps, cands =>
      if nextGuess score st turn cands steps = answer then
        SolveSummary.mk true answer
          (steps ++ [stepResult st (nextGuess score st turn cands steps) answer steps])
      else
        solveLoop score st answer fuel (turn + 1)
          (steps ++ [stepResult st (nextGuess score st turn cands steps) answer steps])
          (filterCandidates st (steps ++ [GuessResult.mk (nextGuess score st turn cands steps)
            (scorePattern (nextGuess score st turn cands steps) answer) 0]))

/-- `solve` from `solver.ts` for an explicitly supplied target word (the
random-target variant draws the answer from the same list and then runs the
identical loop). -/
def solve (score : Word → ℚ) (st : SolverState) (answer : Word) : SolveSummary :=
  solveLoop score st (answer.map Char.toLower) 6 0 [] st.runtimeAnswers

theorem getLast?_cons_of_ne {α : Type} (a : α) (l : List α) (h : l ≠ []) :
    (a :: l).getLast? = l.getLast? := by
  cases l with
  | nil => exact absurd rfl h
  | cons b t => simp [List.getLast?_cons_cons]

theorem dropLast_cons_of_ne {α : Type} (a : α) (l : List α) (h : l ≠ []) :
    (a :: l).dropLast = a :: l.dropLast := by
  cases l with
  | nil => exact absurd rfl h
  | cons b t => rfl

/-- Invariant of the solve loop: with positive fuel it appends between 1 and
`fuel` steps, the first appended guess is the turn's guess, success happens
exactly on a final guess equal to the answer, and failure means the fuel was
exhausted with every appended guess differing from the answer. -/
theorem solveLoop_invariant (score : Word → ℚ) (st : SolverState) (ans : Word) :
    ∀ (fuel turn : Nat) (steps : List GuessResult) (cands : List Word), 0 < fuel →
      ∃ news : List GuessResult,
        (solveLoop score st ans fuel turn steps cands).steps = steps ++ news
        ∧ 1 ≤ news.length ∧ news.length ≤ fuel
        ∧ (solveLoop score st ans fuel turn steps cands).answer = ans
        ∧ news.head?.map (fun s => s.guess) = some (nextGuess score st turn cands steps)
        ∧ ((solveLoop score st ans fuel turn steps cands).success = true →
            news.getLast?.map (fun s => s.guess) = some ans
              ∧ ∀ s ∈ news.dropLast, s.guess ≠ ans)
        ∧ ((solveLoop score st ans fuel turn steps cands).success = false →
            news.length = fuel ∧ ∀ s ∈ news, s.guess ≠ ans) := by
  intro fuel
  induction fuel with
  | zero => intro turn steps cands h; omega
  | succ n ih =>
      intro turn steps cands _
      by_cases hg : nextGuess score st turn cands steps = ans
      · have heq : solveLoop score st ans (n + 1) turn steps cands
            = SolveSummary.mk true ans
                (steps ++ [stepResult st (nextGuess score st turn cands steps) ans steps]) := by
          simp only [solveLoop]
          rw [if_pos hg]
        refine ⟨[stepResult st (nextGuess score st turn cands steps) ans steps],
          ?_, ?_, ?_, ?_, ?_, ?_, ?_⟩
        · rw [heq]
        · simp
        · simp
        · rw [heq]
        · simp [stepResult]
        · intro _
          constructor
          · simp [stepResult, hg]
          · simp
        · intro hfalse
          rw [heq] at hfalse
          simp at hfalse
      · rcases Nat.eq_zero_or_pos n with rfl | hn
        · have heq : solveLoop score st ans 1 turn steps cands
              = SolveSummary.mk false ans
                  (steps ++ [stepResult st (nextGuess score st turn cands steps) ans steps]) := by
            simp only [solveLoop]
            rw [if_neg hg]
          refine ⟨[stepResult st (nextGuess score st turn cands steps) ans steps],
            ?_, ?_, ?_, ?_, ?_, ?_, ?_⟩
          · rw [heq]
          · simp
          · simp
          · rw [heq]
          · simp [stepResult]
          · intro htrue
            rw [heq] at htrue
            simp at htrue
          · intro _
            constructor
            · simp
            · intro s hs
              rcases List.mem_singleton.mp hs with rfl
              simp [stepResult]
              exact hg
        · have heq : solveLoop score st ans (n + 1) turn steps cands
              = solveLoop score st ans n (turn + 1)
                  (steps ++ [stepResult st (nextGuess score st turn cands steps) ans steps])
                  (filterCandidates st
                    (steps ++ [GuessResult.mk (nextGuess score st turn cands steps)
                      (scorePattern (nextGuess score st turn cands steps) ans) 0])) := by
            simp only [solveLoop]
            rw [if_neg hg]
          obtain ⟨news2, h1, hlen1, hlen2, hans2, hhead2, hsucc2, hfail2⟩ :=
            ih (turn + 1)
              (steps ++ [stepResult st (nextGuess score st turn cands steps) ans steps])
              (filterCandidates st
                (steps ++ [GuessResult.mk (nextGuess score st turn cands steps)
                  (scorePattern (nextGuess score st turn cands steps) ans) 0])) hn
          have hne2 : news2 ≠ [] := by
            intro hcontra
            rw [hcontra] at hlen1
            simp at hlen1
          refine ⟨stepResult st (nextGuess score st turn cands steps) ans steps :: news2,
            ?_, ?_, ?_, ?_, ?_, ?_, ?_⟩
          · rw [heq, h1, List.append_assoc, List.singleton_append]
          · simp
          · simp only [List.length_cons]
            omega
          · rw [heq]
            exact hans2
          · simp [stepResult]
          · intro htrue
            rw [heq] at htrue
            obtain ⟨hlast, hdrop⟩ := hsucc2 htrue
            constructor
            · rw [getLast?_cons_of_ne _ _ hne2]
              exact hlast
            · rw [dropLast_cons_of_ne _ _ hne2]
              intro s hs
              rcases List.mem_cons.mp hs with rfl | hs2
              · simpa [stepResult] using hg
              · exact hdrop s hs2
          · intro hfalse
            rw [heq] at hfalse
            obtain ⟨hlen3, hall⟩ := hfail2 hfalse
            constructor
            · simp only [List.length_cons]
              omega
            · intro s hs
              rcases List.mem_cons.mp hs with rfl | hs2
              · simpa [stepResult] using hg
              · exact hall s hs2

/-- Claim C5: for every (lowercase) target word and any scoring function, the
solve loop opens with the fixed guess "roate", succeeds exactly when the last
issued guess equals the target (all earlier guesses differ), reports failure
exactly after 6 turns in which every guess differs from the target, and always
returns between 1 and 6 steps. -/
theorem solve_turn_structure (score : Word → ℚ) (st : SolverState) (answer : Word)
    (hans : answer.map Char.toLower = answer) :
    (solve score st answer).steps.head?.map (fun s => s.guess) = some roateWord
    ∧ 1 ≤ (solve score st answer).steps.length
    ∧ (solve score st answer).steps.length ≤ 6
    ∧ ((solve score st answer).success = true →
        (solve score st answer).steps.getLast?.map (fun s => s.guess) = some answer
          ∧ ∀ s ∈ (solve score st answer).steps.dropLast, s.guess ≠ answer)
    ∧ ((solve score st answer).success = false →
        (solve score st answer).steps.length = 6
          ∧ ∀ s ∈ (solve score st answer).steps, s.guess ≠ answer) := by
  have hsolve : solve score st answer
      = solveLoop score st answer 6 0 [] st.runtimeAnswers := by
    unfold solve
    rw [hans]
  obtain ⟨news, h1, hlen1, hlen2, hans2, hhead, hsucc, hfail⟩ :=
    solveLoop_invariant score st answer 6 0 [] st.runtimeAnswers (by omega)
  rw [List.nil_append] at h1
  have hng : nextGuess score st 0 st.runtimeAnswers [] = roateWord := by
    unfold nextGuess
    rw [if_pos rfl]
    decide
  rw [hsolve]
  refine ⟨?_, ?_, ?_, ?_, ?_⟩
  · rw [h1, hhead, hng]
  · rw [h1]
    exact hlen1
  · rw [h1]
    exact hlen2
  · intro htrue
    obtain ⟨hlast, hdrop⟩ := hsucc htrue
    rw [h1]
    exact ⟨hlast, hdrop⟩
  · intro hfalse
    obtain ⟨hlen3, hall⟩ := hfail hfalse
    rw [h1]
    exact ⟨hlen3, hall⟩

/-- Witness for claim C5: solving for the concrete target "crate" in a
one-word corpus; the returned summary opens with "roate". -/
theorem solve_turn_structure_witness :
    crateWord.map Char.toLower = crateWord
    ∧ (solve (fun _ => 0) (SolverState.mk [crateWord] []) crateWord).steps.head?.map
        (fun s => s.guess) = some roateWord :=
  ⟨by decide,
    (solve_turn_structure (fun _ => 0) (SolverState.mk [crateWord] []) crateWord (by decide)).1⟩

end Wordler
